import Mathlib

/-!
Verification development for the live-telemetry dashboard in
src/dashboard/app.py (a PyShiny application).  The streaming core is
embedded shallowly: the deque buffer becomes a Lean list with the
eviction rule of a Python deque with a maxlen, the timed reactive
calculation becomes a step relation on an explicit application state,
temperatures are exact rationals, and the few IEEE-754 special values
that the code can actually produce (division by zero inside
scipy.stats.linregress) are modelled by an explicit value type.
-/

namespace Dashboard

/-- Reading stored in the deque: the dictionary with keys Temp and
Timestamp built each tick (app.py line 68).  The code keeps the
timestamp as a formatted string with one-second granularity; it is
modelled as a natural-number instant. -/
structure Reading where
  Temp : ℚ
  Timestamp : ℕ
deriving DecidableEq, Repr

/-- DEQUE_SIZE constant from app.py line 47. -/
def DEQUE_SIZE : ℕ := 10

/-- Appending to a Python deque with a maxlen: the new element goes on the
right and elements are discarded from the left until the length is at most
the maxlen. -/
def push (cap : ℕ) (buf : List α) (x : α) : List α :=
  ((buf ++ [x])).drop ((buf ++ [x]).length - cap)

/-- Model of the IEEE-754 double values the embedded code paths can
produce: finite values are kept exact as rationals, and the special
values arise only from division by zero. -/
inductive FVal where
  | nan : FVal
  | posInf : FVal
  | negInf : FVal
  | val : ℚ → FVal
deriving DecidableEq, Repr

/-- Division as numpy performs it on doubles: a zero denominator gives
nan (for a zero numerator) or a signed infinity, with a runtime warning
rather than an exception. -/
def fdiv (a b : ℚ) : FVal :=
  if b = 0 then (if a = 0 then .nan else if 0 < a then .posInf else .negInf)
  else .val (a / b)

/-- Multiplication of a possibly special value by a finite one. -/
def fmul : FVal → ℚ → FVal
  | .nan, _ => .nan
  | .posInf, q => if q = 0 then .nan else if 0 < q then .posInf else .negInf
  | .negInf, q => if q = 0 then .nan else if 0 < q then .negInf else .posInf
  | .val a, q => .val (a * q)

/-- Subtraction of a possibly special value from a finite one. -/
def fsub (q : ℚ) : FVal → FVal
  | .nan => .nan
  | .posInf => .negInf
  | .negInf => .posInf
  | .val a => .val (q - a)

/-- Addition with possibly special values. -/
def fadd : FVal → FVal → FVal
  | .nan, _ => .nan
  | _, .nan => .nan
  | .posInf, .negInf => .nan
  | .negInf, .posInf => .nan
  | .posInf, _ => .posInf
  | .negInf, _ => .negInf
  | .val _, .posInf => .posInf
  | .val _, .negInf => .negInf
  | .val a, .val b => .val (a + b)

/-- Python round(x, 1) on the generated temperature: round to the nearest
multiple of one tenth, ties to even (banker rounding), modelled exactly on
rationals. -/
def pyRound10 (q : ℚ) : ℚ :=
  (((if (10 * q - (⌊10 * q⌋ : ℚ)) < 1/2 then ⌊10 * q⌋
     else if (1/2 : ℚ) < 10 * q - (⌊10 * q⌋ : ℚ) then ⌊10 * q⌋ + 1
     else if Even ⌊10 * q⌋ then ⌊10 * q⌋ else ⌊10 * q⌋ + 1) : ℤ) : ℚ) / 10

example : pyRound10 20 = 20 := by norm_num [pyRound10]

/-! ### The statistics path of display_plot

scipy.stats.linregress, as called on `x_vals = list(range(len(df)))` and
`y_vals = df["Temp"]`.  The scipy source raises ValueError when either
input is empty, raises ValueError when all x values are identical and
there is more than one of them, and otherwise computes
`ssxm, ssxym = np.cov(x, y, bias=1)` entries and `slope = ssxym / ssxm`,
`intercept = ymean - slope * xmean`, where a zero `ssxm` flows through
numpy double division (giving nan or a signed infinity) instead of
raising. -/

/-- Arithmetic mean, np.mean. -/
def mean (l : List ℚ) : ℚ := l.sum / l.length

/-- Biased sample covariance, the off-diagonal entry of
np.cov(x, y, bias=1). -/
def covariance (x y : List ℚ) : ℚ :=
  (((x.zip y).map (fun p => (p.1 - mean x) * (p.2 - mean y))).sum) / x.length

/-- Biased sample variance, the first diagonal entry of
np.cov(x, y, bias=1). -/
def variance (x : List ℚ) : ℚ := covariance x x

/-- Maximum of a list, np.amax on a nonempty array. -/
def npAmax (l : List ℚ) : ℚ := l.foldl max l.headI

/-- Minimum of a list, np.amin on a nonempty array. -/
def npAmin (l : List ℚ) : ℚ := l.foldl min l.headI

/-- The x values used by display_plot: list(range(n)) cast to doubles. -/
def rangeQ (n : ℕ) : List ℚ := (List.range n).map (fun i : ℕ => (i : ℚ))

/-- Exceptions raised by scipy.stats.linregress. -/
inductive LinregressError where
  | emptyInput : LinregressError
  | identicalX : LinregressError
deriving DecidableEq, Repr

/-- scipy.stats.linregress restricted to the two outputs the code reads,
slope and intercept. -/
def linregress (x y : List ℚ) : Except LinregressError (FVal × FVal) :=
  if x.length = 0 ∨ y.length = 0 then .error .emptyInput
  else if npAmax x = npAmin x ∧ 1 < x.length then .error .identicalX
  else .ok (fdiv (covariance x y) (variance x),
            fsub (mean y) (fmul (fdiv (covariance x y) (variance x)) (mean x)))

/-! ### The pandas DataFrame and the display components -/

/-- Model of the DataFrame df built by pd.DataFrame(deque_snapshot),
together with the two in-place updates that display_plot performs on it.
pd.DataFrame of an empty sequence has no columns at all, recorded in
hasCols. -/
structure DF where
  rows : List Reading
  hasCols : Bool
  tsAsDatetime : Bool
  best_fit_line : Option (List FVal)
deriving DecidableEq, Repr

/-- pd.DataFrame(deque_snapshot): one row per reading, Temp and Timestamp
columns present exactly when the sequence is nonempty, and no derived
column yet. -/
def buildDF (rows : List Reading) : DF :=
  { rows := rows, hasCols := !rows.isEmpty, tsAsDatetime := false,
    best_fit_line := none }

/-- Exceptions the display components can raise. -/
inductive PyErr where
  | unboundLocal : PyErr
  | keyError : PyErr
  | valueError : PyErr
deriving DecidableEq, Repr

/-- Plotly figure produced by display_plot: the scatter trace of the
readings plus the regression-line trace. -/
structure Fig where
  xData : List ℕ
  yData : List ℚ
  lineY : List FVal
deriving DecidableEq, Repr

/-- Column added by `df[best_fit_line] = [slope * x + intercept for x in
x_vals]`. -/
def bestFitLine (slope intercept : FVal) (n : ℕ) : List FVal :=
  (rangeQ n).map (fun x => fadd (fmul slope x) intercept)

/-- display_plot (app.py lines 180 to 219).  The body converts the
Timestamp column in place, computes the regression over x = range(n) and
y = the Temp column, stores the best-fit values as a new column of the
same DataFrame, and returns the figure.  The final `return fig` sits
outside the emptiness guard, so an empty DataFrame reaches it with the
local variable fig never assigned, raising UnboundLocalError. -/
def display_plot (df : DF) : Except PyErr (DF × Fig) :=
  if df.rows.isEmpty then .error .unboundLocal
  else
    match linregress (rangeQ df.rows.length) (df.rows.map Reading.Temp) with
    | .error _ => .error .valueError
    | .ok (slope, intercept) =>
        .ok ({ df with
               tsAsDatetime := true
               best_fit_line :=
                 some (bestFitLine slope intercept df.rows.length) },
             { xData := df.rows.map Reading.Timestamp,
               yData := df.rows.map Reading.Temp,
               lineY := bestFitLine slope intercept df.rows.length })

/-- display_pie_chart (app.py lines 226 to 241).  It reads the Temp
column twice to count readings above and at most 20 degrees; on a
DataFrame with no columns the lookup df[Temp] raises KeyError.  The
returned state is the (unmodified) DataFrame together with the two pie
values. -/
def display_pie_chart (df : DF) : Except PyErr (DF × ℕ × ℕ) :=
  if df.hasCols then
    .ok (df,
         ((df.rows.map Reading.Temp).filter (fun v => decide ((20:ℚ) < v))).length,
         ((df.rows.map Reading.Temp).filter (fun v => decide (v ≤ (20:ℚ)))).length)
  else .error .keyError

/-- display_df (app.py lines 169 to 174): renders render.DataGrid(df),
only reading the DataFrame; the returned state is the unmodified
DataFrame and the grid shows the same table. -/
def display_df (df : DF) : DF × DF := (df, df)

/-- display_temp (app.py lines 136 to 140): reads only the latest entry. -/
def display_temp (latest : Reading) : ℚ := latest.Temp

/-- display_time (app.py lines 152 to 164): reads only the latest entry. -/
def display_time (latest : Reading) : ℕ := latest.Timestamp

/-! ### The reactive scheduler state machine

reactive_calc_combined (app.py lines 60 to 84) re-executes once per
firing of reactive.invalidate_later(UPDATE_INTERVAL_SECS); between
firings every caller receives the cached tuple.  Each execution draws
one reading, appends it to the deque held in reactive_value_wrapper,
and caches the tuple (deque_snapshot, df, latest_dictionary_entry).
Note that `deque_snapshot = reactive_value_wrapper.get()` stores the
live deque object itself, not a copy, so the first component of the
cached tuple is modelled as a reference into the application state. -/

/-- External inputs: the stream of random.uniform(17, 23) draws and the
datetime.now() instants, indexed by tick number. -/
structure Source where
  draw : ℕ → ℚ
  clock : ℕ → ℕ

/-- Reading generated at tick k (app.py lines 66 to 68). -/
def mkReading (src : Source) (k : ℕ) : Reading :=
  { Temp := pyRound10 (src.draw k), Timestamp := src.clock k }

/-- References into the mutable store of the application.  The app has a
single deque, held by reactive_value_wrapper. -/
inductive BufRef where
  | theDeque : BufRef
deriving DecidableEq, Repr

/-- Cached combined result: the live reference returned by
reactive_value_wrapper.get(), the materialized DataFrame, and the latest
entry. -/
structure Combined where
  snapshotRef : BufRef
  df : DF
  latest : Reading
deriving DecidableEq, Repr

/-- Full application state: the deque contents, the number of timer
firings so far, and the cached combined result (none before the first
execution). -/
structure AppState where
  deque : List Reading
  ticks : ℕ
  cache : Option Combined
deriving DecidableEq, Repr

/-- State at app start: an empty deque(maxlen=DEQUE_SIZE) and no cached
value. -/
def initState : AppState := { deque := [], ticks := 0, cache := none }

/-- Dereference a stored buffer reference in the current state. -/
def readRef (s : AppState) : BufRef → List Reading
  | .theDeque => s.deque

/-- One firing of the invalidation timer: reactive_calc_combined
re-executes, drawing a reading, appending it to the deque, and caching
the combined tuple. -/
def tick (src : Source) (s : AppState) : AppState :=
  { deque := push DEQUE_SIZE s.deque (mkReading src s.ticks),
    ticks := s.ticks + 1,
    cache := some { snapshotRef := .theDeque,
                    df := buildDF (push DEQUE_SIZE s.deque (mkReading src s.ticks)),
                    latest := mkReading src s.ticks } }

/-- Events visible to the scheduler: a timer firing, or a consumer call
of reactive_calc_combined between firings (served from the cache). -/
inductive Ev where
  | tick : Ev
  | read : Ev
deriving DecidableEq, Repr

/-- Is the event a timer firing. -/
def Ev.isTick : Ev → Bool
  | .tick => true
  | .read => false

/-- Transition of the application state on one event.  A read returns
the cached tuple and leaves the state unchanged. -/
def step (src : Source) (s : AppState) : Ev → AppState
  | .tick => tick src s
  | .read => s

/-- Run a sequence of events. -/
def run (src : Source) (s : AppState) (es : List Ev) : AppState :=
  es.foldl (step src) s

/-- Value observed by a caller of reactive_calc_combined: the cached
tuple with its first component dereferenced in the current state. -/
def get_combined (s : AppState) : Option (List Reading × DF × Reading) :=
  s.cache.map (fun c => (readRef s c.snapshotRef, c.df, c.latest))

/-! ### Lemmas about the bounded buffer -/

/-- Length of the buffer after one append: the deque keeps at most cap
elements. -/
lemma push_length (cap : ℕ) (buf : List α) (x : α) :
    (push cap buf x).length = min (buf.length + 1) cap := by
  simp [push]
  omega

/-- The buffer never exceeds its capacity after an append. -/
lemma push_length_le (cap : ℕ) (buf : List α) (x : α) :
    (push cap buf x).length ≤ cap := by
  rw [push_length]
  omega

/-- Every element of the buffer after an append was in the buffer before
or is the appended element. -/
lemma mem_push (cap : ℕ) (buf : List α) (x a : α) (h : a ∈ push cap buf x) :
    a ∈ buf ∨ a = x := by
  have h2 := List.mem_of_mem_drop h
  rcases List.mem_append.mp h2 with h3 | h3
  · exact Or.inl h3
  · simp at h3
    exact Or.inr h3

/-- Folding appends over a buffer that is within capacity keeps exactly
the rightmost cap elements of the concatenation. -/
lemma foldl_push (cap : ℕ) :
    ∀ (xs : List α) (buf : List α), buf.length ≤ cap →
      xs.foldl (push cap) buf = (buf ++ xs).drop (buf.length + xs.length - cap) := by
  intro xs
  induction xs with
  | nil =>
      intro buf hbuf
      have h0 : buf.length - cap = 0 := by omega
      simp [h0]
  | cons x xs ih =>
      intro buf hbuf
      have hlen : (push cap buf x).length = min (buf.length + 1) cap :=
        push_length cap buf x
      have hle : (push cap buf x).length ≤ cap := push_length_le cap buf x
      have hstep : (x :: xs).foldl (push cap) buf = xs.foldl (push cap) (push cap buf x) := rfl
      rw [hstep, ih (push cap buf x) hle]
      have hxlen : (buf ++ [x]).length = buf.length + 1 := by simp
      have hd : buf.length + 1 - cap ≤ (buf ++ [x]).length := by
        rw [hxlen]
        omega
      have hsplit : (push cap buf x) ++ xs =
          ((buf ++ [x]) ++ xs).drop (buf.length + 1 - cap) := by
        rw [show push cap buf x = (buf ++ [x]).drop (buf.length + 1 - cap) by
              simp [push]]
        rw [List.drop_append_of_le_length hd]
      rw [hsplit, List.drop_drop]
      have harr : ((buf ++ [x]) ++ xs) = buf ++ x :: xs := by simp
      rw [harr]
      congr 1
      rw [hlen]
      simp only [List.length_cons]
      omega

/-- Claim C1: for every capacity and every sequence of pushed readings,
after every push the buffer length is at most the capacity (in
particular the fixed DEQUE_SIZE = 10), the buffer holds exactly the last
min(pushes, capacity) readings in insertion order, and with capacity 3
pushing 1, 2, 3, 4 leaves the buffer 2, 3, 4. -/
theorem buffer_bounded_and_window (cap : ℕ) (xs : List ℚ) :
    (xs.foldl (push cap) []).length ≤ cap ∧
    xs.foldl (push cap) [] = xs.drop (xs.length - cap) ∧
    (xs.foldl (push cap) []).length = min xs.length cap ∧
    (xs.foldl (push DEQUE_SIZE) []).length ≤ DEQUE_SIZE ∧
    ([1, 2, 3, 4] : List ℚ).foldl (push 3) [] = [2, 3, 4] := by
  have hgen : ∀ (c : ℕ) (l : List ℚ), l.foldl (push c) [] = l.drop (l.length - c) := by
    intro c l
    have h := foldl_push c l [] (by simp)
    simpa using h
  have hlen : ∀ (c : ℕ) (l : List ℚ), (l.foldl (push c) []).length = min l.length c := by
    intro c l
    rw [hgen c l, List.length_drop]
    omega
  refine ⟨?_, hgen cap xs, hlen cap xs, ?_, ?_⟩
  · rw [hlen cap xs]; omega
  · rw [hlen DEQUE_SIZE xs]; omega
  · rw [hgen 3 [1, 2, 3, 4]]
    norm_num

/-! ### The scheduler: ticks drive the buffer, reads are served from the
cache -/

/-- Reads are no-ops on the state: a run is determined by its tick
events alone. -/
lemma run_filter_isTick (src : Source) :
    ∀ (es : List Ev) (s : AppState),
      run src s es = run src s (es.filter Ev.isTick) := by
  intro es
  induction es with
  | nil => intro s; rfl
  | cons e es ih =>
      intro s
      cases e with
      | tick =>
          have h1 : run src s (Ev.tick :: es) = run src (tick src s) es := rfl
          have h2 : (Ev.tick :: es).filter Ev.isTick =
              Ev.tick :: es.filter Ev.isTick := rfl
          rw [h1, h2]
          exact ih (tick src s)
      | read =>
          have h1 : run src s (Ev.read :: es) = run src s es := rfl
          have h2 : (Ev.read :: es).filter Ev.isTick = es.filter Ev.isTick := rfl
          rw [h1, h2]
          exact ih s
/-- Each run advances the tick counter by exactly the number of timer
firings in it. -/
lemma run_ticks_count (src : Source) :
    ∀ (es : List Ev) (s : AppState),
      (run src s es).ticks = s.ticks + (es.filter Ev.isTick).length := by
  intro es
  induction es with
  | nil => intro s; rfl
  | cons e es ih =>
      intro s
      cases e with
      | tick =>
          have h1 : run src s (Ev.tick :: es) = run src (tick src s) es := rfl
          rw [h1, ih (tick src s)]
          have h2 : (Ev.tick :: es).filter Ev.isTick =
              Ev.tick :: es.filter Ev.isTick := rfl
          rw [h2]
          simp [tick]
          omega
      | read =>
          have h1 : run src s (Ev.read :: es) = run src s es := rfl
          rw [h1, ih s]
          rfl

/-- Claim C6: recomputation is timer-driven only.  A run of events
produces the same state as the run of its timer firings alone (reads
never pull a reading), the tick counter advances by exactly the number
of firings, and each firing appends exactly one freshly drawn reading to
the buffer. -/
theorem ticks_only_drive_buffer (src : Source) (s : AppState) (es : List Ev) :
    run src s es = run src s (es.filter Ev.isTick) ∧
    (run src s es).ticks = s.ticks + (es.filter Ev.isTick).length ∧
    (tick src s).deque = push DEQUE_SIZE s.deque (mkReading src s.ticks) ∧
    (tick src s).ticks = s.ticks + 1 ∧
    step src s Ev.read = s :=
  ⟨run_filter_isTick src es s, run_ticks_count src es s, rfl, rfl, rfl⟩

/-- Claim C7: reads are served from the cache.  A read leaves the state
unchanged, two consecutive reads with no intervening tick leave the
state unchanged, and the combined value observed by the second read
equals the one observed by the first (same buffer snapshot, same table,
same latest reading). -/
theorem reads_stable_no_recompute (src : Source) (s : AppState) :
    step src s Ev.read = s ∧
    run src s [Ev.read, Ev.read] = s ∧
    get_combined (step src s Ev.read) = get_combined s :=
  ⟨rfl, rfl, rfl⟩

/-- Length of the deque after a tick. -/
lemma tick_deque_length (src : Source) (s : AppState) :
    (tick src s).deque.length = min (s.deque.length + 1) DEQUE_SIZE := by
  simp [tick, push_length]

/-- Claim C10: the buffer snapshot stored in the combined result is the
live deque, not a copy.  Dereferencing the snapshot reference of the
combined result cached at tick k, after tick k+1 has happened, yields
the tick k+1 contents of the buffer, and (below capacity) these differ
from the tick k contents. -/
theorem snapshot_is_live_reference (src : Source) (s : AppState) (c : Combined)
    (hroom : s.deque.length + 1 < DEQUE_SIZE)
    (hc : (tick src s).cache = some c) :
    readRef (tick src (tick src s)) c.snapshotRef = (tick src (tick src s)).deque ∧
    readRef (tick src (tick src s)) c.snapshotRef ≠ (tick src s).deque := by
  have href : c.snapshotRef = BufRef.theDeque := by
    have : some { snapshotRef := BufRef.theDeque,
                  df := buildDF (push DEQUE_SIZE s.deque (mkReading src s.ticks)),
                  latest := mkReading src s.ticks } = some c := hc
    cases this
    rfl
  constructor
  · rw [href]; rfl
  · rw [href]
    intro heq
    have hlens : (tick src (tick src s)).deque.length = (tick src s).deque.length := by
      have : readRef (tick src (tick src s)) BufRef.theDeque =
          (tick src (tick src s)).deque := rfl
      rw [this] at heq
      rw [heq]
    rw [tick_deque_length, tick_deque_length] at hlens
    omega

/-- Deterministic source used to instantiate the theorems: a constant
draw of 20 degrees and a one-second clock. -/
def src₀ : Source := { draw := fun _ => 20, clock := fun k => k }

/-- Witness for claim C10 at a concrete input: starting from the empty
buffer, the snapshot cached at the first tick dereferences, after the
second tick, to a buffer that differs from the one at the first tick. -/
theorem snapshot_is_live_reference_witness :
    readRef (tick src₀ (tick src₀ initState))
        (Combined.mk BufRef.theDeque (buildDF [Reading.mk 20 0]) (Reading.mk 20 0)).snapshotRef ≠
      (tick src₀ initState).deque := by
  have hc : (tick src₀ initState).cache =
      some (Combined.mk BufRef.theDeque (buildDF [Reading.mk 20 0]) (Reading.mk 20 0)) := by
    have hr : pyRound10 ((20 : ℚ)) = 20 := by norm_num [pyRound10]
    simp [tick, initState, mkReading, src₀, push, hr, DEQUE_SIZE]
  exact (snapshot_is_live_reference src₀ initState
    (Combined.mk BufRef.theDeque (buildDF [Reading.mk 20 0]) (Reading.mk 20 0))
    (by simp [initState, DEQUE_SIZE]) hc).2

/-! ### Range of the generated temperatures -/

/-- Helper: an integer between 170 and 230 divided by ten lies between
17 and 23. -/
lemma int_div10_range (r : ℤ) (h1 : 170 ≤ r) (h2 : r ≤ 230) :
    17 ≤ (r : ℚ) / 10 ∧ (r : ℚ) / 10 ≤ 23 := by
  have h1Q : (170 : ℚ) ≤ (r : ℚ) := by exact_mod_cast h1
  have h2Q : (r : ℚ) ≤ 230 := by exact_mod_cast h2
  constructor
  · rw [le_div_iff₀ (by norm_num : (0:ℚ) < 10)]
    linarith
  · rw [div_le_iff₀ (by norm_num : (0:ℚ) < 10)]
    linarith

/-- Rounding to one decimal place keeps a draw from the closed interval
from 17 to 23 inside that interval: both endpoints are multiples of one
tenth. -/
lemma pyRound10_range (q : ℚ) (h1 : 17 ≤ q) (h2 : q ≤ 23) :
    17 ≤ pyRound10 q ∧ pyRound10 q ≤ 23 := by
  have hlo : (170 : ℤ) ≤ ⌊10 * q⌋ := by
    rw [Int.le_floor]
    push_cast
    linarith
  have hhi : (⌊10 * q⌋ : ℚ) ≤ 230 := by
    calc (⌊10 * q⌋ : ℚ) ≤ 10 * q := Int.floor_le (10 * q)
    _ ≤ 230 := by linarith
  have hhiZ : ⌊10 * q⌋ ≤ (230 : ℤ) := by exact_mod_cast hhi
  unfold pyRound10
  split_ifs with hA hB hC
  · exact int_div10_range _ hlo hhiZ
  all_goals
  · have hup : ⌊10 * q⌋ + 1 ≤ (230 : ℤ) := by
      have hge : (1/2 : ℚ) ≤ 10 * q - (⌊10 * q⌋ : ℚ) := not_lt.mp hA
      have hfloorQ : (⌊10 * q⌋ : ℚ) ≤ 459/2 := by linarith
      have h230 : (⌊10 * q⌋ : ℚ) < 230 := by linarith
      have : ⌊10 * q⌋ < (230 : ℤ) := by exact_mod_cast h230
      omega
    have hlo1 : (170 : ℤ) ≤ ⌊10 * q⌋ + 1 := by omega
    first
      | exact int_div10_range _ hlo hhiZ
      | (have h := int_div10_range (⌊10 * q⌋ + 1) hlo1 hup
         push_cast at h ⊢
         exact h)

/-- Range invariant maintained by the scheduler: every reading in the
deque, and everything cached, has a temperature between 17 and 23. -/
def InRange (s : AppState) : Prop :=
  (∀ r ∈ s.deque, 17 ≤ r.Temp ∧ r.Temp ≤ 23) ∧
  (∀ c, s.cache = some c →
      (17 ≤ c.latest.Temp ∧ c.latest.Temp ≤ 23) ∧
      ∀ r ∈ c.df.rows, 17 ≤ r.Temp ∧ r.Temp ≤ 23)

/-- One step preserves the range invariant when every raw draw lies in
the interval from 17 to 23 (the contract of random.uniform(17, 23)). -/
lemma step_inRange (src : Source)
    (hdraw : ∀ k, 17 ≤ src.draw k ∧ src.draw k ≤ 23)
    (s : AppState) (hs : InRange s) (e : Ev) : InRange (step src s e) := by
  cases e with
  | read => exact hs
  | tick =>
      have hnew : 17 ≤ (mkReading src s.ticks).Temp ∧
          (mkReading src s.ticks).Temp ≤ 23 := by
        have h := hdraw s.ticks
        exact pyRound10_range (src.draw s.ticks) h.1 h.2
      have hdeque : ∀ r ∈ push DEQUE_SIZE s.deque (mkReading src s.ticks),
          17 ≤ r.Temp ∧ r.Temp ≤ 23 := by
        intro r hr
        rcases mem_push DEQUE_SIZE s.deque (mkReading src s.ticks) r hr with h | h
        · exact hs.1 r h
        · rw [h]; exact hnew
      refine ⟨hdeque, ?_⟩
      intro c hcEq
      have : some { snapshotRef := BufRef.theDeque,
                    df := buildDF (push DEQUE_SIZE s.deque (mkReading src s.ticks)),
                    latest := mkReading src s.ticks } = some c := hcEq
      cases this
      exact ⟨hnew, hdeque⟩

/-- Runs preserve the range invariant. -/
lemma run_inRange (src : Source)
    (hdraw : ∀ k, 17 ≤ src.draw k ∧ src.draw k ≤ 23) :
    ∀ (es : List Ev) (s : AppState), InRange s → InRange (run src s es) := by
  intro es
  induction es with
  | nil => intro s hs; exact hs
  | cons e es ih =>
      intro s hs
      exact ih (step src s e) (step_inRange src hdraw s hs e)

/-- Claim C9: when every raw draw obeys the random.uniform(17, 23)
contract, every reading in the buffer after any sequence of events from
app start, the cached latest reading, and every row of the cached table
have temperatures in the closed interval from 17 to 23. -/
theorem readings_in_range (src : Source)
    (hdraw : ∀ k, 17 ≤ src.draw k ∧ src.draw k ≤ 23) (es : List Ev) :
    (∀ r ∈ (run src initState es).deque, 17 ≤ r.Temp ∧ r.Temp ≤ 23) ∧
    (∀ c, (run src initState es).cache = some c →
        (17 ≤ c.latest.Temp ∧ c.latest.Temp ≤ 23) ∧
        ∀ r ∈ c.df.rows, 17 ≤ r.Temp ∧ r.Temp ≤ 23) := by
  have h0 : InRange initState := by
    constructor
    · intro r hr; cases hr
    · intro c hc; cases hc
  exact run_inRange src hdraw es initState h0

/-- Witness for claim C9 at a concrete input: with the constant source
drawing 20 degrees, the reading stored by the first tick is in range. -/
theorem readings_in_range_witness :
    Reading.mk 20 0 ∈ (run src₀ initState [Ev.tick]).deque ∧
    (17 ≤ (Reading.mk (20 : ℚ) 0).Temp ∧ (Reading.mk (20 : ℚ) 0).Temp ≤ 23) := by
  have hmem : Reading.mk 20 0 ∈ (run src₀ initState [Ev.tick]).deque := by
    have hr : pyRound10 ((20 : ℚ)) = 20 := by norm_num [pyRound10]
    simp [run, step, tick, initState, mkReading, src₀, push, hr, DEQUE_SIZE]
  exact ⟨hmem,
    (readings_in_range src₀
        (fun k => ⟨by norm_num [src₀], by norm_num [src₀]⟩) [Ev.tick]).1
      (Reading.mk 20 0) hmem⟩

/-! ### Lemmas about the regression input x = range(n) -/

/-- The x list has length n. -/
lemma rangeQ_length (n : ℕ) : (rangeQ n).length = n := by
  unfold rangeQ
  rw [List.length_map, List.length_range]

/-- Zero is among the x values when n is positive. -/
lemma zero_mem_rangeQ (n : ℕ) (h : 0 < n) : (0 : ℚ) ∈ rangeQ n := by
  unfold rangeQ
  have h0 : (0 : ℕ) ∈ List.range n := List.mem_range.mpr h
  have h2 := List.mem_map_of_mem (fun i : ℕ => (i : ℚ)) h0
  rw [show ((fun i : ℕ => (i : ℚ)) 0) = (0 : ℚ) by norm_num] at h2
  exact h2

/-- The value n - 1 is among the x values when n is positive. -/
lemma last_mem_rangeQ (n : ℕ) (h : 0 < n) : ((n - 1 : ℕ) : ℚ) ∈ rangeQ n := by
  unfold rangeQ
  have h0 : (n - 1 : ℕ) ∈ List.range n := List.mem_range.mpr (by omega)
  exact List.mem_map_of_mem (fun i : ℕ => (i : ℚ)) h0

/-- Folding max can only grow its accumulator. -/
lemma init_le_foldl_max : ∀ (l : List ℚ) (init : ℚ), init ≤ l.foldl max init := by
  intro l
  induction l with
  | nil => intro init; exact le_refl init
  | cons b t ih =>
      intro init
      calc init ≤ max init b := le_max_left init b
      _ ≤ t.foldl max (max init b) := ih (max init b)

/-- Every member of a list bounds the max fold from below. -/
lemma mem_le_foldl_max : ∀ (l : List ℚ) (init a : ℚ), a ∈ l → a ≤ l.foldl max init := by
  intro l
  induction l with
  | nil => intro init a ha; cases ha
  | cons b t ih =>
      intro init a ha
      rcases List.mem_cons.mp ha with h | h
      · rw [h]
        calc b ≤ max init b := le_max_right init b
        _ ≤ t.foldl max (max init b) := init_le_foldl_max t (max init b)
      · exact ih (max init b) a h

/-- Folding min can only shrink its accumulator. -/
lemma foldl_min_le_init : ∀ (l : List ℚ) (init : ℚ), l.foldl min init ≤ init := by
  intro l
  induction l with
  | nil => intro init; exact le_refl init
  | cons b t ih =>
      intro init
      calc t.foldl min (min init b) ≤ min init b := ih (min init b)
      _ ≤ init := min_le_left init b

/-- The min fold is below every member of the list. -/
lemma foldl_min_le_mem : ∀ (l : List ℚ) (init a : ℚ), a ∈ l → l.foldl min init ≤ a := by
  intro l
  induction l with
  | nil => intro init a ha; cases ha
  | cons b t ih =>
      intro init a ha
      rcases List.mem_cons.mp ha with h | h
      · rw [h]
        calc t.foldl min (min init b) ≤ min init b := foldl_min_le_init t (min init b)
        _ ≤ b := min_le_right init b
      · exact ih (min init b) a h

/-- For two or more points the x values are not all identical, so the
scipy identical-x guard does not fire. -/
lemma rangeQ_amax_ne_amin (n : ℕ) (h : 2 ≤ n) : npAmax (rangeQ n) ≠ npAmin (rangeQ n) := by
  have h0 : (0 : ℚ) ∈ rangeQ n := zero_mem_rangeQ n (by omega)
  have hlast : ((n - 1 : ℕ) : ℚ) ∈ rangeQ n := last_mem_rangeQ n (by omega)
  have hmax : ((n - 1 : ℕ) : ℚ) ≤ npAmax (rangeQ n) :=
    mem_le_foldl_max (rangeQ n) (rangeQ n).headI _ hlast
  have hmin : npAmin (rangeQ n) ≤ 0 :=
    foldl_min_le_mem (rangeQ n) (rangeQ n).headI 0 h0
  have hone : (1 : ℚ) ≤ ((n - 1 : ℕ) : ℚ) := by
    have : (1 : ℕ) ≤ n - 1 := by omega
    exact_mod_cast this
  intro heq
  rw [heq] at hmax
  linarith

/-- Zipping a list with itself pairs each element with itself. -/
lemma zip_self : ∀ (l : List ℚ), l.zip l = l.map (fun a => (a, a)) := by
  intro l
  induction l with
  | nil => rfl
  | cons b t ih => simp [List.zip_cons_cons, ih]

/-- A list of nonnegative rationals with one positive member has a
positive sum. -/
lemma sum_pos_of_mem_pos :
    ∀ (l : List ℚ), (∀ b ∈ l, 0 ≤ b) → ∀ a ∈ l, 0 < a → 0 < l.sum := by
  intro l
  induction l with
  | nil => intro _ a ha; cases ha
  | cons b t ih =>
      intro hnn a ha hpos
      rw [List.sum_cons]
      rcases List.mem_cons.mp ha with h | h
      · have hts : 0 ≤ t.sum := List.sum_nonneg (fun x hx => hnn x (List.mem_cons_of_mem b hx))
        rw [h] at hpos
        linarith
      · have hb : 0 ≤ b := hnn b (List.mem_cons_self b t)
        have := ih (fun x hx => hnn x (List.mem_cons_of_mem b hx)) a h hpos
        linarith

/-- The variance of x = range(n) expressed as a sum of squares. -/
lemma variance_eq_sq_sum (x : List ℚ) :
    variance x = (x.map (fun a => (a - mean x) * (a - mean x))).sum / x.length := by
  unfold variance covariance
  rw [zip_self, List.map_map]
  rfl

/-- The variance of the regression x values is positive for two or more
points. -/
lemma variance_rangeQ_pos (n : ℕ) (h : 2 ≤ n) : 0 < variance (rangeQ n) := by
  rw [variance_eq_sq_sum, rangeQ_length]
  have hnQ : (0 : ℚ) < (n : ℚ) := by exact_mod_cast Nat.lt_of_lt_of_le (by omega) h
  refine div_pos ?_ hnQ
  have hnn : ∀ b ∈ (rangeQ n).map (fun a => (a - mean (rangeQ n)) * (a - mean (rangeQ n))), 0 ≤ b := by
    intro b hb
    rcases List.mem_map.mp hb with ⟨a, _, rfl⟩
    exact mul_self_nonneg _
  by_cases hmu : mean (rangeQ n) = 0
  · have hmem : ((n - 1 : ℕ) : ℚ) ∈ rangeQ n := last_mem_rangeQ n (by omega)
    have hterm := List.mem_map_of_mem
      (fun a => (a - mean (rangeQ n)) * (a - mean (rangeQ n))) hmem
    refine sum_pos_of_mem_pos _ hnn _ hterm ?_
    show 0 < (((n - 1 : ℕ) : ℚ) - mean (rangeQ n)) * (((n - 1 : ℕ) : ℚ) - mean (rangeQ n))
    have hone : (1 : ℚ) ≤ ((n - 1 : ℕ) : ℚ) := by
      have : (1 : ℕ) ≤ n - 1 := by omega
      exact_mod_cast this
    rw [hmu, sub_zero]
    exact mul_self_pos.mpr (by linarith : ((n - 1 : ℕ) : ℚ) ≠ 0)
  · have hmem : (0 : ℚ) ∈ rangeQ n := zero_mem_rangeQ n (by omega)
    have hterm := List.mem_map_of_mem
      (fun a => (a - mean (rangeQ n)) * (a - mean (rangeQ n))) hmem
    refine sum_pos_of_mem_pos _ hnn _ hterm ?_
    show 0 < ((0 : ℚ) - mean (rangeQ n)) * ((0 : ℚ) - mean (rangeQ n))
    refine mul_self_pos.mpr ?_
    rw [zero_sub]
    exact neg_ne_zero.mpr hmu

/-- Claim C4: for two or more readings the trend computation is the
ordinary least squares fit.  linregress on x = range(n) and the n values
y raises nothing and returns finite slope = covariance(x, y)/variance(x)
and intercept = mean(y) - slope * mean(x). -/
theorem trend_ols_n_ge_two (y : List ℚ) (h : 2 ≤ y.length) :
    linregress (rangeQ y.length) y =
      .ok (.val (covariance (rangeQ y.length) y / variance (rangeQ y.length)),
           .val (mean y -
             covariance (rangeQ y.length) y / variance (rangeQ y.length) *
               mean (rangeQ y.length))) := by
  have hne : ¬((rangeQ y.length).length = 0 ∨ y.length = 0) := by
    rw [rangeQ_length]
    omega
  have hguard : ¬(npAmax (rangeQ y.length) = npAmin (rangeQ y.length) ∧
      1 < (rangeQ y.length).length) := by
    intro hcon
    exact rangeQ_amax_ne_amin y.length h hcon.1
  have hvar : variance (rangeQ y.length) ≠ 0 :=
    ne_of_gt (variance_rangeQ_pos y.length h)
  unfold linregress
  rw [if_neg hne, if_neg hguard]
  rw [show fdiv (covariance (rangeQ y.length) y) (variance (rangeQ y.length)) =
        .val (covariance (rangeQ y.length) y / variance (rangeQ y.length)) by
      simp [fdiv, hvar]]
  rfl

/-- Witness for claim C4 at the concrete input from the spec: for values
1, 2, 3, 4, 5 the fit is slope 1 and intercept 1. -/
theorem trend_ols_witness :
    linregress (rangeQ 5) [(1 : ℚ), 2, 3, 4, 5] = .ok (.val 1, .val 1) := by
  have h := trend_ols_n_ge_two [(1 : ℚ), 2, 3, 4, 5] (by norm_num)
  have hlen : ([(1 : ℚ), 2, 3, 4, 5]).length = 5 := by norm_num
  rw [hlen] at h
  rw [h]
  have hx : rangeQ 5 = [(0 : ℚ), 1, 2, 3, 4] := by
    norm_num [rangeQ, List.range_succ]
  have hmx : mean (rangeQ 5) = 2 := by
    rw [hx]
    norm_num [mean]
  have hmy : mean [(1 : ℚ), 2, 3, 4, 5] = 3 := by
    norm_num [mean]
  have hcov : covariance (rangeQ 5) [(1 : ℚ), 2, 3, 4, 5] = 2 := by
    rw [covariance, hmx, hmy, hx]
    norm_num [List.zip_cons_cons]
  have hvar : variance (rangeQ 5) = 2 := by
    rw [variance, covariance, hmx, hx]
    norm_num [List.zip_cons_cons]
  rw [hcov, hvar, hmx, hmy]
  norm_num

/-! ### Behavior of the display components on degenerate buffers -/

/-- Claim C2 (refuted, recorded as a code bug): on the empty buffer the
consumers do not tolerate the empty case.  display_plot reaches
`return fig` with fig never assigned and raises UnboundLocalError, and
display_pie_chart looks up the Temp column of a column-less DataFrame
and raises KeyError. -/
theorem empty_buffer_consumers_raise :
    display_plot (buildDF []) = .error .unboundLocal ∧
    display_pie_chart (buildDF []) = .error .keyError := by
  constructor
  · rfl
  · rfl

/-- Evaluation of linregress on a single point: the identical-x guard is
skipped because len(x) is not greater than one, the variance of x is
zero, and the double division 0/0 produces nan for both slope and
intercept. -/
lemma linregress_single_point : linregress (rangeQ 1) [(20 : ℚ)] = .ok (.nan, .nan) := by
  have hx : rangeQ 1 = [(0 : ℚ)] := by
    unfold rangeQ
    rw [List.range_succ]
    norm_num
  rw [hx]
  unfold linregress
  rw [if_neg (by norm_num)]
  rw [if_neg (by norm_num)]
  have hcov : covariance [(0 : ℚ)] [(20 : ℚ)] = 0 := by
    unfold covariance mean
    norm_num [List.zip_cons_cons]
  have hvar : variance [(0 : ℚ)] = 0 := by
    unfold variance covariance mean
    norm_num [List.zip_cons_cons]
  rw [hcov, hvar]
  norm_num [fdiv, fmul, fsub]

/-- Claim C3 (refuted, recorded as a code bug): with exactly one reading
the trend path does not return an absent trend.  The code has no n = 1
special case: linregress divides zero by zero, the slope and intercept
are nan, and the best-fit column plotted by display_plot is the nan
list. -/
theorem single_reading_trend_nan :
    linregress (rangeQ 1) [(20 : ℚ)] = .ok (.nan, .nan) ∧
    display_plot (buildDF [Reading.mk 20 0]) =
      .ok ({ rows := [Reading.mk 20 0], hasCols := true, tsAsDatetime := true,
             best_fit_line := some [.nan] },
           { xData := [0], yData := [20], lineY := [.nan] }) := by
  refine ⟨linregress_single_point, ?_⟩
  have hmap : ([Reading.mk (20 : ℚ) 0]).map Reading.Temp = [(20 : ℚ)] := rfl
  unfold display_plot
  rw [if_neg (by simp [buildDF])]
  have hlen : (buildDF [Reading.mk (20 : ℚ) 0]).rows.length = 1 := rfl
  rw [show (buildDF [Reading.mk (20 : ℚ) 0]).rows = [Reading.mk (20 : ℚ) 0] from rfl]
  rw [hmap]
  rw [show ([Reading.mk (20 : ℚ) 0]).length = 1 from rfl]
  rw [linregress_single_point]
  rfl

/-! ### The distribution bucketer -/

/-- The two threshold filters of display_pie_chart split any list of
values into two disjoint exhaustive groups. -/
lemma filter_partition_20 (l : List ℚ) :
    (l.filter (fun v => decide ((20:ℚ) < v))).length +
      (l.filter (fun v => decide (v ≤ (20:ℚ)))).length = l.length := by
  induction l with
  | nil => rfl
  | cons a t ih =>
      by_cases h : (20:ℚ) < a
      · have hd1 : decide ((20:ℚ) < a) = true := decide_eq_true h
        have hd2 : decide (a ≤ (20:ℚ)) = false := decide_eq_false (not_le.mpr h)
        simp [List.filter_cons, hd1, hd2]
        omega
      · have hd1 : decide ((20:ℚ) < a) = false := decide_eq_false h
        have hd2 : decide (a ≤ (20:ℚ)) = true := decide_eq_true (not_lt.mp h)
        simp [List.filter_cons, hd1, hd2]
        omega

/-- Elimination of a successful display_pie_chart call: the DataFrame
comes back unchanged and the two counts are the two filter counts. -/
lemma pie_ok_elim (df : DF) (d : DF) (a b : ℕ)
    (h : display_pie_chart df = .ok (d, a, b)) :
    d = df ∧
    a = ((df.rows.map Reading.Temp).filter (fun v => decide ((20:ℚ) < v))).length ∧
    b = ((df.rows.map Reading.Temp).filter (fun v => decide (v ≤ (20:ℚ)))).length := by
  unfold display_pie_chart at h
  by_cases hc : df.hasCols
  · rw [if_pos hc] at h
    simp only [Except.ok.injEq, Prod.mk.injEq] at h
    exact ⟨h.1.symm, h.2.1.symm, h.2.2.symm⟩
  · rw [if_neg hc] at h
    exact absurd h (by simp)

/-- Claim C5: whenever display_pie_chart produces its two counts, they
partition the window: count above plus count at or below equals the
number of readings, and the shared DataFrame is returned unchanged. -/
theorem pie_counts_partition (df : DF) (d : DF) (a b : ℕ)
    (h : display_pie_chart df = .ok (d, a, b)) :
    a + b = df.rows.length ∧ d = df := by
  obtain ⟨hd, ha, hb⟩ := pie_ok_elim df d a b h
  refine ⟨?_, hd⟩
  rw [ha, hb]
  rw [filter_partition_20 (df.rows.map Reading.Temp), List.length_map]

/-- Readings used to instantiate the bucketing scenario from the spec:
values 18, 19, 20, 21, 22. -/
def pieRows : List Reading :=
  [Reading.mk 18 0, Reading.mk 19 1, Reading.mk 20 2, Reading.mk 21 3, Reading.mk 22 4]

/-- Witness for claim C5 at the concrete input from the spec: with
values 18, 19, 20, 21, 22 and threshold 20 the counts are 2 above and 3
at or below, and they sum to the window size. -/
theorem pie_counts_partition_witness :
    display_pie_chart (buildDF pieRows) = .ok (buildDF pieRows, 2, 3) ∧
    2 + 3 = (buildDF pieRows).rows.length := by
  have hok : display_pie_chart (buildDF pieRows) = .ok (buildDF pieRows, 2, 3) := by
    unfold display_pie_chart
    rw [if_pos (by rfl)]
    have hvals : (buildDF pieRows).rows.map Reading.Temp = [(18:ℚ), 19, 20, 21, 22] := rfl
    rw [hvals]
    norm_num [List.filter_cons]
  exact ⟨hok, (pie_counts_partition (buildDF pieRows) (buildDF pieRows) 2 3 hok).1⟩

/-! ### Mutation of the shared cached DataFrame by the consumers -/

/-- linregress never raises when called the way display_plot calls it on
a nonempty window: x = range(n) with n at least 1. -/
lemma linregress_rangeQ_ok (ys : List ℚ) (h : ys.length ≠ 0) :
    linregress (rangeQ ys.length) ys =
      .ok (fdiv (covariance (rangeQ ys.length) ys) (variance (rangeQ ys.length)),
           fsub (mean ys)
             (fmul (fdiv (covariance (rangeQ ys.length) ys) (variance (rangeQ ys.length)))
               (mean (rangeQ ys.length)))) := by
  have hg1 : ¬((rangeQ ys.length).length = 0 ∨ ys.length = 0) := by
    rw [rangeQ_length]
    omega
  have hg2 : ¬(npAmax (rangeQ ys.length) = npAmin (rangeQ ys.length) ∧
      1 < (rangeQ ys.length).length) := by
    rw [rangeQ_length]
    rcases Nat.lt_or_ge ys.length 2 with hlt | hge
    · intro hcon
      omega
    · intro hcon
      exact rangeQ_amax_ne_amin ys.length hge hcon.1
  unfold linregress
  rw [if_neg hg1, if_neg hg2]

/-- Readings used for the mutation counterexample: two cached rows with
values 21 and 22. -/
def cexRows : List Reading := [Reading.mk 21 0, Reading.mk 22 1]

/-- Evaluation of the regression on the counterexample rows. -/
lemma linregress_cex : linregress (rangeQ 2) [(21 : ℚ), 22] = .ok (.val 1, .val 21) := by
  have h := linregress_rangeQ_ok [(21 : ℚ), 22] (by norm_num)
  rw [show ([(21 : ℚ), 22]).length = 2 from rfl] at h
  rw [h]
  have hx : rangeQ 2 = [(0 : ℚ), 1] := by
    unfold rangeQ
    rw [show List.range 2 = [0, 1] from rfl]
    norm_num
  have hmx : mean (rangeQ 2) = 1/2 := by
    rw [hx]
    norm_num [mean]
  have hmy : mean [(21 : ℚ), 22] = 43/2 := by
    norm_num [mean]
  have hcov : covariance (rangeQ 2) [(21 : ℚ), 22] = 1/4 := by
    rw [covariance, hmx, hmy, hx]
    norm_num [List.zip_cons_cons]
  have hvar : variance (rangeQ 2) = 1/4 := by
    rw [variance, covariance, hmx, hx]
    norm_num [List.zip_cons_cons]
  rw [hcov, hvar, hmx, hmy]
  norm_num [fdiv, fmul, fsub]

/-- Claim C8 counterexample: invoking the trend-chart consumer on the
cached table modifies it.  On the concrete cached DataFrame with rows 21
and 22 the DataFrame coming out of display_plot has the Timestamp column
converted and a best_fit_line column added, so it is not the DataFrame
that was cached. -/
theorem plot_mutates_cached_df_cex :
    Except.map Prod.fst (display_plot (buildDF cexRows)) =
      .ok { rows := cexRows, hasCols := true, tsAsDatetime := true,
            best_fit_line := some [.val 21, .val 22] } ∧
    Except.map Prod.fst (display_plot (buildDF cexRows)) ≠ .ok (buildDF cexRows) := by
  have hbfl : bestFitLine (.val 1) (.val 21) 2 = [.val 21, .val 22] := by
    unfold bestFitLine
    rw [show rangeQ 2 = [(0 : ℚ), 1] by
          unfold rangeQ
          rw [show List.range 2 = [0, 1] from rfl]
          norm_num]
    norm_num [fmul, fadd]
  have hstep : display_plot (buildDF cexRows) =
      .ok ({ rows := cexRows, hasCols := (buildDF cexRows).hasCols,
             tsAsDatetime := true,
             best_fit_line := some (bestFitLine (.val 1) (.val 21) 2) },
           { xData := cexRows.map Reading.Timestamp, yData := [21, 22],
             lineY := bestFitLine (.val 1) (.val 21) 2 }) := by
    unfold display_plot
    rw [if_neg (by simp [buildDF, cexRows])]
    rw [show (buildDF cexRows).rows = cexRows from rfl]
    rw [show cexRows.map Reading.Temp = [(21 : ℚ), 22] from rfl]
    rw [show cexRows.length = 2 from rfl]
    rw [linregress_cex]
  have hplot : display_plot (buildDF cexRows) =
      .ok ({ rows := cexRows, hasCols := true, tsAsDatetime := true,
             best_fit_line := some [.val 21, .val 22] },
           { xData := [0, 1], yData := [21, 22], lineY := [.val 21, .val 22] }) := by
    rw [hstep, hbfl]
    rfl
  rw [hplot]
  constructor
  · rfl
  · intro hcon
    simp only [Except.map, Except.ok.injEq] at hcon
    have := congrArg DF.best_fit_line hcon
    simp [buildDF] at this

/-- Claim C8 amended: the value-box, timestamp, table-grid and pie-chart
consumers leave the cached table unmodified, but the trend-chart
consumer display_plot does mutate the shared cached DataFrame before the
next tick replaces it: it converts the Timestamp column in place and
adds a best_fit_line column, keeping the rows. -/
theorem consumers_mutation_profile (rows : List Reading) (h : rows ≠ []) :
    (∀ df : DF, display_df df = (df, df)) ∧
    (∀ d a b, display_pie_chart (buildDF rows) = .ok (d, a, b) → d = buildDF rows) ∧
    (∃ dfp fig, display_plot (buildDF rows) = .ok (dfp, fig) ∧
        dfp ≠ buildDF rows ∧ dfp.tsAsDatetime = true ∧
        dfp.best_fit_line ≠ none ∧ dfp.rows = rows) := by
  refine ⟨fun df => rfl, ?_, ?_⟩
  · intro d a b hok
    exact (pie_ok_elim (buildDF rows) d a b hok).1
  · have hne : (buildDF rows).rows.isEmpty = false := by
      cases rows with
      | nil => exact absurd rfl h
      | cons r rs => rfl
    have hlen : (rows.map Reading.Temp).length = rows.length := List.length_map _ _
    have hok := linregress_rangeQ_ok (rows.map Reading.Temp)
      (by rw [hlen]; intro h0; exact h (List.eq_nil_of_length_eq_zero h0))
    rw [hlen] at hok
    obtain ⟨sl, ic, hok2⟩ : ∃ sl ic,
        linregress (rangeQ rows.length) (rows.map Reading.Temp) = .ok (sl, ic) :=
      ⟨_, _, hok⟩
    refine ⟨{ rows := rows, hasCols := (buildDF rows).hasCols, tsAsDatetime := true,
              best_fit_line := some (bestFitLine sl ic rows.length) },
            { xData := rows.map Reading.Timestamp, yData := rows.map Reading.Temp,
              lineY := bestFitLine sl ic rows.length },
            ?_, ?_, rfl, Option.some_ne_none _, rfl⟩
    · unfold display_plot
      rw [if_neg (by rw [hne]; exact Bool.false_ne_true)]
      rw [show (buildDF rows).rows = rows from rfl, hok2]
    · intro hcon
      have := congrArg DF.best_fit_line hcon
      simp [buildDF] at this

/-- Witness for the amended claim C8 at a concrete input: the table-grid
consumer returns the two-row cached DataFrame unchanged. -/
theorem consumers_mutation_profile_witness :
    display_df (buildDF cexRows) = (buildDF cexRows, buildDF cexRows) :=
  (consumers_mutation_profile cexRows (by simp [cexRows])).1 (buildDF cexRows)

end Dashboard
